import Mathlib

/-!
Verification of the branch/commit data model of `src/app/src/lib/vbranches/types.ts`
(the GitButler UI data model), shallowly embedded in Lean.

Modelling conventions:
* TypeScript classes become structures; payload-shaped raw records get their own
  `...Payload` structures and explicit deserialization functions mirroring the
  field-level `@Transform` conversions.
* JavaScript `Date` objects are modelled by `JsDate`, a wrapper around the
  epoch-milliseconds integer handed to the `Date` constructor.
* TypeScript string-literal union types (`CommitStatus`, `ForgeType`) are
  modelled as `String`, exactly as they are at runtime.
* JavaScript string operations used by the source (`includes`, one-shot
  `replace`, `split`, `slice`, `join`, `findIndex`, index access) are embedded
  as structurally recursive functions over `List Char` with JS semantics
  (first-occurrence replace, `-1`-free `Option Nat` find index, and so on).
* Fallible operations (a getter that would throw a `TypeError`, a constructor
  that would raise a deserialization error) are embedded as `Option`-valued
  functions where `none` marks the failure.
* The third-party `git-url-parse` dependency and the `ipv4Regex` utility are
  not part of the supplied slice; they are modelled from the specification and
  carry a doc comment saying exactly what is modelled.
-/

namespace GitButler

/-- A JavaScript `Date`: the integer (epoch milliseconds) given to `new Date(v)`. -/
structure JsDate where
  ms : Int
deriving DecidableEq, Repr

/-- The `Author` interface: all fields optional. `gravatarUrl` is kept as an
optional string. -/
structure Author where
  email : Option String
  name : Option String
  gravatarUrl : Option String
  isBot : Option Bool
deriving DecidableEq, Repr

/-- The `RemoteCommit` class (payload-backed fields; the mutable UI linkage
fields `prev`/`next`/`relatedTo`, which are not set by deserialization, are
omitted). -/
structure RemoteCommit where
  id : String
  author : Author
  description : String
  createdAt : JsDate
  changeId : String
  isSigned : Bool
  parentIds : List String
deriving DecidableEq, Repr

/-- Getter `RemoteCommit.get isLocal`: always false. -/
def RemoteCommit.isLocal (_ : RemoteCommit) : Bool :=
  false

/-- Getter `RemoteCommit.get status`: always the string `remote`. -/
def RemoteCommit.status (_ : RemoteCommit) : String :=
  "remote"

/-- Method `RemoteCommit.isMergeCommit()`: more than one parent. -/
def RemoteCommit.isMergeCommit (c : RemoteCommit) : Bool :=
  decide (1 < c.parentIds.length)

/-- The `Commit` class (payload-backed fields; `files` and the mutable
`prev`/`next` linkage fields, which no verified getter reads, are omitted). -/
structure Commit where
  id : String
  author : Author
  description : String
  createdAt : JsDate
  isRemote : Bool
  isIntegrated : Bool
  parentIds : List String
  branchId : String
  changeId : String
  isSigned : Bool
  relatedTo : Option RemoteCommit
deriving DecidableEq, Repr

/-- Getter `Commit.get isLocal`: `!this.isRemote && !this.isIntegrated`. -/
def Commit.isLocal (c : Commit) : Bool :=
  !c.isRemote && !c.isIntegrated

/-- Getter `Commit.get status`:
`if (this.isIntegrated) return 'integrated';`
`if (this.isRemote && (!this.relatedTo || this.id === this.relatedTo.id)) return 'localAndRemote';`
`return 'local';` -/
def Commit.status (c : Commit) : String :=
  if c.isIntegrated then "integrated"
  else if c.isRemote && (match c.relatedTo with
      | none => true
      | some r => c.id == r.id) then "localAndRemote"
  else "local"

/-- Method `Commit.isMergeCommit()`: more than one parent. -/
def Commit.isMergeCommit (c : Commit) : Bool :=
  decide (1 < c.parentIds.length)

/-- The union type `AnyCommit = Commit | RemoteCommit`. -/
inductive AnyCommit where
  | ofCommit (c : Commit)
  | ofRemoteCommit (c : RemoteCommit)
deriving DecidableEq

/-- The `id` field of either commit variant. -/
def AnyCommit.id : AnyCommit → String
  | .ofCommit c => c.id
  | .ofRemoteCommit c => c.id

/-- The `changeId` field of either commit variant. -/
def AnyCommit.changeId : AnyCommit → String
  | .ofCommit c => c.changeId
  | .ofRemoteCommit c => c.changeId

/-- Function `commitCompare(left, right)`:
`if (left.id === right.id) return true;`
`if (left.changeId && right.changeId && left.changeId === right.changeId) return true;`
`return false;`
A JavaScript string is truthy exactly when it is non-empty. -/
def commitCompare (left right : AnyCommit) : Bool :=
  if left.id == right.id then true
  else if (!(left.changeId == "") && !(right.changeId == "")) && left.changeId == right.changeId then
    true
  else false

/-- Raw payload shape for `RemoteCommit`: `createdAt` arrives as a raw number
(epoch seconds). -/
structure RemoteCommitPayload where
  id : String
  author : Author
  description : String
  createdAt : Int
  changeId : String
  isSigned : Bool
  parentIds : List String
deriving DecidableEq, Repr

/-- Raw payload shape for `Commit`: `createdAt` arrives as a raw number
(epoch milliseconds); `relatedTo` is a nested optional `RemoteCommit` payload. -/
structure CommitPayload where
  id : String
  author : Author
  description : String
  createdAt : Int
  isRemote : Bool
  isIntegrated : Bool
  parentIds : List String
  branchId : String
  changeId : String
  isSigned : Bool
  relatedTo : Option RemoteCommitPayload
deriving DecidableEq, Repr

/-- Deserialization of a `RemoteCommit` payload; the `@Transform` on
`createdAt` is `new Date(obj.value * 1000)`. -/
def deserializeRemoteCommit (p : RemoteCommitPayload) : RemoteCommit :=
  { id := p.id
    author := p.author
    description := p.description
    createdAt := ⟨p.createdAt * 1000⟩
    changeId := p.changeId
    isSigned := p.isSigned
    parentIds := p.parentIds }

/-- Deserialization of a `Commit` payload; the `@Transform` on `createdAt` is
`new Date(obj.value)`, and the nested `relatedTo` payload is converted
recursively. -/
def deserializeCommit (p : CommitPayload) : Commit :=
  { id := p.id
    author := p.author
    description := p.description
    createdAt := ⟨p.createdAt⟩
    isRemote := p.isRemote
    isIntegrated := p.isIntegrated
    parentIds := p.parentIds
    branchId := p.branchId
    changeId := p.changeId
    isSigned := p.isSigned
    relatedTo := p.relatedTo.map deserializeRemoteCommit }

/-! ### JavaScript string primitives, embedded over `List Char` -/

/-- Whether `pat` occurs as a contiguous substring of `l` (JS `String.prototype.includes`). -/
def includesAux (pat : List Char) : List Char → Bool
  | [] => pat.isEmpty
  | c :: rest => pat.isPrefixOf (c :: rest) || includesAux pat rest

/-- JS `s.includes(pat)`. -/
def jsIncludes (s pat : String) : Bool :=
  includesAux pat.toList s.toList

/-- Split at the first occurrence of `sep`: `some (before, after)`, or `none`
when `sep` does not occur. -/
def splitAtFirst (sep : Char) : List Char → Option (List Char × List Char)
  | [] => none
  | c :: rest =>
    if c == sep then some ([], rest)
    else (splitAtFirst sep rest).map (fun p => (c :: p.1, p.2))

/-- Accumulator worker for `splitAllOn`. -/
def splitAllOnAux (sep : Char) : List Char → List Char → List (List Char)
  | [], acc => [acc.reverse]
  | c :: rest, acc =>
    if c == sep then acc.reverse :: splitAllOnAux sep rest []
    else splitAllOnAux sep rest (c :: acc)

/-- JS `s.split(sep)` for a single-character separator. -/
def splitAllOn (sep : Char) (l : List Char) : List (List Char) :=
  splitAllOnAux sep l []

/-- Remove `suf` from the end of `l` when it is a suffix, else leave `l`. -/
def stripSuffixChars (suf l : List Char) : List Char :=
  if suf.isSuffixOf l then l.take (l.length - suf.length) else l

/-- JS one-shot `s.replace(pat, '')` on character lists: remove the first
(leftmost) occurrence of `pat`, wherever it occurs; when `pat` does not occur
the list is unchanged. -/
def jsReplaceFirst (pat : List Char) : List Char → List Char
  | [] => []
  | c :: rest =>
    if pat.isPrefixOf (c :: rest) then (c :: rest).drop pat.length
    else c :: jsReplaceFirst pat rest

/-- Index of the first occurrence of `pat` as a substring of `l` (`none` when
there is no occurrence; the empty pattern is found at 0 in a non-empty list). -/
def firstOccIdx (pat : List Char) : List Char → Option Nat
  | [] => none
  | c :: rest =>
    if pat.isPrefixOf (c :: rest) then some 0
    else (firstOccIdx pat rest).map (fun i => i + 1)

/-- JS `s.replace(pat, '')` on strings. -/
def strReplaceJs (s pat : String) : String :=
  String.mk (jsReplaceFirst pat.toList s.toList)

/-- Removal of the first occurrence of `pat` from `s`, described positionally:
cut the string at the least index where `pat` occurs and drop `pat.length`
characters there. Used to state what the JS one-shot `replace` computes. -/
def removeFirstOcc (s pat : String) : String :=
  match firstOccIdx pat.toList s.toList with
  | none => s
  | some i => String.mk (s.toList.take i ++ s.toList.drop (i + pat.toList.length))

/-- Removal of `pat` as a leading prefix only: the reading of `displayName`
asserted by the specification claim (strip the pattern when the name starts
with it, otherwise leave the name unchanged). -/
def stripAsPre (s pat : String) : String :=
  if pat.toList.isPrefixOf s.toList then String.mk (s.toList.drop pat.toList.length) else s

/-- JS `arr.join('/')` on character-list segments. -/
def joinSlash : List (List Char) → String
  | [] => ""
  | [s] => String.mk s
  | s :: rest => String.mk s ++ "/" ++ joinSlash rest

/-- JS `Array.prototype.findIndex` over authors: index of the first element
satisfying `p`, with `none` for JS's `-1`. -/
def findIndexBy (p : Author → Bool) : List Author → Option Nat
  | [] => none
  | a :: l => if p a then some 0 else (findIndexBy p l).map (fun i => i + 1)

/-- The filter inside `RemoteBranchData.get authors`:
`allAuthors.filter((author, index) => allAuthors.findIndex((a) => a.email === author.email) === index)`,
walked with an explicit running index. -/
def filterUnique (all : List Author) : List Author → Nat → List Author
  | [], _ => []
  | a :: rest, i =>
    if findIndexBy (fun b => b.email == a.email) all == some i then
      a :: filterUnique all rest (i + 1)
    else
      filterUnique all rest (i + 1)

/-- Keep each author whose email has not been seen yet, threading the list of
seen emails (bridging device between the source's index-based filter and the
first-occurrence deduplication it implements). -/
def keepUnseen (seen : List (Option String)) : List Author → List Author
  | [] => []
  | a :: rest =>
    if seen.contains a.email then keepUnseen seen rest
    else a :: keepUnseen (a.email :: seen) rest

/-- Deduplication by email keeping the first occurrence, in first-occurrence
order: the behaviour the specification ascribes to `authors`. -/
def dedupByFirstEmail : List Author → List Author
  | [] => []
  | a :: rest => a :: dedupByFirstEmail (rest.filter (fun b => !(b.email == a.email)))
termination_by l => l.length
decreasing_by
  simpa using Nat.lt_succ_of_le (List.length_filter_le _ _)

/-! ### `RemoteBranchData` -/

/-- The `RemoteBranchData` class (payload-backed fields). -/
structure RemoteBranchData where
  sha : String
  name : String
  upstream : Option String
  behind : Int
  commits : List RemoteCommit
  isMergeable : Option Bool
  forkPoint : Option String
deriving DecidableEq, Repr

/-- Getter `RemoteBranchData.get ahead`: `this.commits.length`. -/
def RemoteBranchData.ahead (b : RemoteBranchData) : Nat :=
  b.commits.length

/-- Getter `RemoteBranchData.get lastCommitTs`: `this.commits[0]?.createdAt` — the
optional chaining makes the access total, `none` models `undefined`. -/
def RemoteBranchData.lastCommitTs (b : RemoteBranchData) : Option JsDate :=
  (b.commits[0]?).map (fun c => c.createdAt)

/-- Getter `RemoteBranchData.get firstCommitAt`:
`this.commits[this.commits.length - 1].createdAt` — there is no optional
chaining here, so on an empty commit list the property access throws a
`TypeError`; `none` models that failure. -/
def RemoteBranchData.firstCommitAt (b : RemoteBranchData) : Option JsDate :=
  (b.commits[b.commits.length - 1]?).map (fun c => c.createdAt)

/-- Getter `RemoteBranchData.get authors`:
`const allAuthors = this.commits.map((commit) => commit.author);`
`const uniqueAuthors = allAuthors.filter((author, index) => allAuthors.findIndex((a) => a.email === author.email) === index);` -/
def RemoteBranchData.authors (b : RemoteBranchData) : List Author :=
  let allAuthors := b.commits.map (fun c => c.author)
  filterUnique allAuthors allAuthors 0

/-- Getter `RemoteBranchData.get displayName`:
`this.name.replace('refs/remotes/', '').replace('origin/', '').replace('refs/heads/', '')`. -/
def RemoteBranchData.displayName (b : RemoteBranchData) : String :=
  strReplaceJs (strReplaceJs (strReplaceJs b.name "refs/remotes/") "origin/") "refs/heads/"

/-! ### `BaseBranch`: forge detection and URL resolution -/

/-- Modelled from the spec: the `ipv4Regex` utility comes from the url module,
which is not part of the supplied slice; per the spec the web protocol is
`http` exactly when the host is a literal IPv4 address, else `https`. A host is
taken to be a literal IPv4 address when it is four dot-separated runs of one to
three decimal digits. -/
def isIpv4 (s : String) : Bool :=
  let parts := splitAllOn '.' s.toList
  parts.length == 4 &&
    parts.all (fun p => !p.isEmpty && decide (p.length ≤ 3) && p.all Char.isDigit)

/-- The structured remote-URL descriptor produced by the `git-url-parse`
dependency: protocol, resource (host), user, organization, owner and repo name. -/
structure GitUrl where
  protocol : String
  resource : String
  user : String
  organization : String
  owner : String
  name : String
deriving DecidableEq, Repr

/-- Assemble a descriptor from a host, userinfo and non-empty path segments;
fails (`none`) when the host is empty or there are fewer than two path
segments. The repo name is the last segment with a `.git` suffix removed; the
owner is the first segment, except on a `dev.azure.com` host where the
organization occupies the first segment and the owner the second; the
organization slot carries the first segment. -/
def mkGitUrl (protocol : String) (user host : List Char) (segs : List (List Char)) :
    Option GitUrl :=
  if host.isEmpty then none
  else
    match segs with
    | [] => none
    | [_] => none
    | s0 :: s1 :: more =>
      some
        { protocol := protocol
          resource := String.mk host
          user := String.mk user
          organization := String.mk s0
          owner :=
            if jsIncludes (String.mk host) "dev.azure.com" then String.mk s1
            else String.mk s0
          name := String.mk (stripSuffixChars ".git".toList ((s1 :: more).getLastD [])) }

/-- Modelled from the spec: the third-party `git-url-parse` dependency is not
part of the supplied slice. Per the spec it parses a remote URL into a
descriptor with protocol, resource (host), owner, organization, repo name and
user, and a URL that cannot be parsed into host/owner/name is a parse failure
(`none`). Two shapes are handled, the ones the spec exercises: scheme URLs
`proto://[user@]host/…/owner/name[.git]` and scp-like ssh URLs
`[user@]host:…/owner/name[.git]` (whose protocol is `ssh`). -/
def parseGitUrl (url : String) : Option GitUrl :=
  match splitAtFirst ':' url.toList with
  | none => none
  | some (beforeColon, afterColon) =>
    match afterColon with
    | '/' :: '/' :: rest =>
      (match splitAllOn '/' rest with
       | [] => none
       | hostPart :: rawSegs =>
         let userHost :=
           match splitAtFirst '@' hostPart with
           | none => ([], hostPart)
           | some p => p
         mkGitUrl (String.mk beforeColon) userHost.1 userHost.2
           (rawSegs.filter (fun s => !s.isEmpty)))
    | _ =>
      let userHost :=
        match splitAtFirst '@' beforeColon with
        | none => ([], beforeColon)
        | some p => p
      mkGitUrl "ssh" userHost.1 userHost.2
        ((splitAllOn '/' afterColon).filter (fun s => !s.isEmpty))

/-- Method `BaseBranch.getForgeType(repoBaseUrl)`: substring match on the resolved
host, checked in source order via `switch (true)`. -/
def getForgeType (repoBaseUrl : String) : String :=
  if jsIncludes repoBaseUrl "github.com" then "GitHub"
  else if jsIncludes repoBaseUrl "gitlab.com" then "GitLab"
  else if jsIncludes repoBaseUrl "bitbucket.org" then "Bitbucket"
  else if jsIncludes repoBaseUrl "dev.azure.com" then "AzureDevOps"
  else "Unknown"

/-- Raw payload shape for `BaseBranch` (the fields `afterTransform` and the
URL getters read). `pushRemoteUrl` is optional. -/
structure BaseBranchPayload where
  branchName : String
  remoteName : String
  pushRemoteName : String
  remoteUrl : String
  pushRemoteUrl : Option String
deriving DecidableEq, Repr

/-- The `@Transform` on the exposed `pushRemoteUrl` payload field:
`(value ? GitUrlParse(value) : undefined)`. A falsy (absent or empty) value
yields `undefined`; per the spec's failure policy a present but unparsable
push-remote URL is tolerated and treated as absent (`parseGitUrl` returns
`none` on it), never an error. -/
def gitPushRemoteOfPayload (v : Option String) : Option GitUrl :=
  match v with
  | none => none
  | some s => if s = "" then none else parseGitUrl s

/-- The `BaseBranch` class after deserialization and its one-time
`afterTransform` hook: raw fields plus the derived fields the hook assigns.
The stored generator closures are kept as optional functions. -/
structure BaseBranch where
  branchName : String
  remoteName : String
  pushRemoteName : String
  remoteUrl : String
  gitPushRemote : Option GitUrl
  repoBaseUrl : String
  forgeType : String
  actualPushRemoteName : String
  commitBaseUrl : Option String
  generateCommitUrl : Option (String → String)
  generateBranchUrl : Option (String → String → String)

/-- Deserialization of a `BaseBranch` payload followed by the one-time
`afterTransform()` hook (lines 409-481 of `types.ts`). A `remoteUrl` that
cannot be parsed fails the whole construction (`none`, the spec's
`DeserializationError`); the optional push remote is transformed by
`gitPushRemoteOfPayload` and, when absent, every push-remote-derived field
stays unset. -/
def afterTransform (p : BaseBranchPayload) : Option BaseBranch :=
  match parseGitUrl p.remoteUrl with
  | none => none
  | some gitRemote =>
    let remoteUrlProtocol := if isIpv4 gitRemote.resource then "http" else "https"
    let repoBaseUrl :=
      remoteUrlProtocol ++ "://" ++ gitRemote.resource ++ "/" ++ gitRemote.owner ++ "/" ++
        gitRemote.name
    let forgeType := getForgeType gitRemote.resource
    let actualPushRemoteName := if p.pushRemoteName ≠ "" then p.pushRemoteName else p.remoteName
    match gitPushRemoteOfPayload p.pushRemoteUrl with
    | none =>
      some
        { branchName := p.branchName
          remoteName := p.remoteName
          pushRemoteName := p.pushRemoteName
          remoteUrl := p.remoteUrl
          gitPushRemote := none
          repoBaseUrl := repoBaseUrl
          forgeType := forgeType
          actualPushRemoteName := actualPushRemoteName
          commitBaseUrl := none
          generateCommitUrl := none
          generateBranchUrl := none }
    | some pushRemote =>
      let webProtocol := if isIpv4 pushRemote.resource then "http" else "https"
      let resource :=
        if pushRemote.protocol = "ssh" && "ssh.".toList.isPrefixOf pushRemote.resource.toList then
          String.mk (pushRemote.resource.toList.drop 4)
        else pushRemote.resource
      let commitBaseUrl :=
        if forgeType = "AzureDevOps" then
          webProtocol ++ "://" ++ resource ++ "/" ++ pushRemote.organization ++ "/" ++
            pushRemote.owner ++ "/_git/" ++ pushRemote.name
        else
          webProtocol ++ "://" ++ resource ++ "/" ++ pushRemote.owner ++ "/" ++ pushRemote.name
      let generateCommitUrl : String → String :=
        if forgeType = "Bitbucket" then fun commitId => commitBaseUrl ++ "/commits/" ++ commitId
        else if forgeType = "GitLab" then fun commitId => commitBaseUrl ++ "/-/commit/" ++ commitId
        else fun commitId => commitBaseUrl ++ "/commit/" ++ commitId
      let generateBranchUrl : String → String → String :=
        if p.pushRemoteName ≠ "" ∧ forgeType = "GitHub" then
          fun baseBranchName branchName =>
            repoBaseUrl ++ "/compare/" ++ baseBranchName ++ "..." ++ pushRemote.user ++ ":" ++
              pushRemote.name ++ ":" ++ branchName
        else if forgeType = "Bitbucket" then
          fun baseBranchName branchName =>
            repoBaseUrl ++ "/branch/" ++ branchName ++ "?dest=" ++ baseBranchName
        else if forgeType = "AzureDevOps" then
          fun baseBranchName branchName =>
            commitBaseUrl ++ "/branchCompare?baseVersion=GB" ++ baseBranchName ++
              "&targetVersion=GB" ++ branchName
        else
          fun baseBranchName branchName =>
            repoBaseUrl ++ "/compare/" ++ baseBranchName ++ "..." ++ branchName
      some
        { branchName := p.branchName
          remoteName := p.remoteName
          pushRemoteName := p.pushRemoteName
          remoteUrl := p.remoteUrl
          gitPushRemote := some pushRemote
          repoBaseUrl := repoBaseUrl
          forgeType := forgeType
          actualPushRemoteName := actualPushRemoteName
          commitBaseUrl := some commitBaseUrl
          generateCommitUrl := some generateCommitUrl
          generateBranchUrl := some generateBranchUrl }

/-- Method `BaseBranch.commitUrl(commitId)`:
`this.generateCommitUrl ? this.generateCommitUrl(commitId) : undefined`. -/
def BaseBranch.commitUrl (b : BaseBranch) (commitId : String) : Option String :=
  match b.generateCommitUrl with
  | some g => some (g commitId)
  | none => none

/-- JS indexing `arr[i]` used inside a template literal: an out-of-range access
yields `undefined`, which a template literal renders as the text `undefined`. -/
def jsIndexAsStr (arr : List (List Char)) (i : Nat) : String :=
  match arr[i]? with
  | some s => String.mk s
  | none => "undefined"

/-- Method `BaseBranch.branchUrl(upstreamBranchName)`:
`if (!upstreamBranchName || !this.gitPushRemote || !this.generateBranchUrl) return undefined;`
`const baseBranchName = this.branchName.split('/')[1];`
`const branchName = upstreamBranchName.split('/').slice(3).join('/');`
`return this.generateBranchUrl(baseBranchName, branchName);` -/
def BaseBranch.branchUrl (b : BaseBranch) (upstreamBranchName : Option String) : Option String :=
  match upstreamBranchName with
  | none => none
  | some u =>
    if u = "" then none
    else
      match b.gitPushRemote, b.generateBranchUrl with
      | some _, some g =>
        let baseBranchName := jsIndexAsStr (splitAllOn '/' b.branchName.toList) 1
        let branchName := joinSlash ((splitAllOn '/' u.toList).drop 3)
        some (g baseBranchName branchName)
      | _, _ => none

/-! ### Concrete instances used by witnesses and counterexamples -/

/-- An author with every optional field absent. -/
def authorEmpty : Author :=
  { email := none, name := none, gravatarUrl := none, isBot := none }

/-- A plain remote commit. -/
def remoteCommitA : RemoteCommit :=
  { id := "r1", author := authorEmpty, description := "", createdAt := ⟨0⟩, changeId := "",
    isSigned := false, parentIds := [] }

/-- A commit with `isIntegrated` set. -/
def commitIntegrated : Commit :=
  { id := "c1", author := authorEmpty, description := "", createdAt := ⟨0⟩, isRemote := true,
    isIntegrated := true, parentIds := [], branchId := "b", changeId := "", isSigned := false,
    relatedTo := none }

/-- A commit that is remote, not integrated, with no related upstream commit. -/
def commitLocalAndRemote : Commit :=
  { commitIntegrated with id := "c2", isIntegrated := false }

/-- A commit that is neither remote nor integrated. -/
def commitLocalOnly : Commit :=
  { commitIntegrated with id := "c3", isRemote := false, isIntegrated := false }

/-- A commit that is remote, not integrated, whose `relatedTo` carries a
different id. -/
def commitRelatedElsewhere : Commit :=
  { commitIntegrated with
    id := "abc"
    isIntegrated := false
    relatedTo := some { remoteCommitA with id := "def" } }

/-- A `BaseBranch` payload whose `pushRemoteUrl` is absent and whose
`remoteUrl` is the spec's GitHub ssh example. -/
def payloadNoPush : BaseBranchPayload :=
  { branchName := "origin/master", remoteName := "origin", pushRemoteName := "",
    remoteUrl := "git@github.com:owner/repo.git", pushRemoteUrl := none }

/-- The `BaseBranch` that deserializing `payloadNoPush` produces. -/
def baseNoPush : BaseBranch :=
  { branchName := "origin/master", remoteName := "origin", pushRemoteName := "",
    remoteUrl := "git@github.com:owner/repo.git", gitPushRemote := none,
    repoBaseUrl := "https://github.com/owner/repo", forgeType := "GitHub",
    actualPushRemoteName := "origin", commitBaseUrl := none, generateCommitUrl := none,
    generateBranchUrl := none }

/-- A `RemoteBranchData` with no commits. -/
def rbdEmptyCommits : RemoteBranchData :=
  { sha := "s", name := "n", upstream := none, behind := 0, commits := [], isMergeable := none,
    forkPoint := none }

/-- A `RemoteBranchData` with one commit. -/
def rbdOneCommit : RemoteBranchData :=
  { rbdEmptyCommits with commits := [remoteCommitA] }

/-- A `RemoteBranchData` whose name contains `origin/` in the middle, not as a
leading prefix. -/
def rbdMidOrigin : RemoteBranchData :=
  { rbdEmptyCommits with name := "a/origin/b" }

/-- A remote-commit payload with raw `createdAt` 5 (epoch seconds). -/
def remoteCommitPayload5 : RemoteCommitPayload :=
  { id := "r5", author := authorEmpty, description := "", createdAt := 5, changeId := "",
    isSigned := false, parentIds := [] }

/-- A commit payload with raw `createdAt` 5 (epoch milliseconds). -/
def commitPayload5 : CommitPayload :=
  { id := "c5", author := authorEmpty, description := "", createdAt := 5, isRemote := false,
    isIntegrated := false, parentIds := [], branchId := "b", changeId := "", isSigned := false,
    relatedTo := none }

/-- An author named Alice. -/
def authorAlice : Author :=
  { email := some "alice@example.com", name := some "Alice", gravatarUrl := none, isBot := none }

/-- A second author object with Alice's email but another display name. -/
def authorAliceDup : Author :=
  { authorAlice with name := some "Alice A." }

/-- An author named Bob. -/
def authorBob : Author :=
  { email := some "bob@example.com", name := some "Bob", gravatarUrl := none, isBot := none }

/-- A `RemoteBranchData` with three commits, the first two sharing an email. -/
def rbdThreeCommits : RemoteBranchData :=
  { rbdEmptyCommits with
    commits :=
      [{ remoteCommitA with id := "r1", author := authorAlice },
       { remoteCommitA with id := "r2", author := authorAliceDup },
       { remoteCommitA with id := "r3", author := authorBob }] }

/-! ### Theorems -/

/-- C1: the derived `status` of a `Commit` follows the precedence
integrated > localAndRemote > local — `isIntegrated` forces `integrated`
regardless of all other fields; otherwise `isRemote` together with an absent
`relatedTo` or one bearing the commit's own id gives `localAndRemote`;
otherwise `local` — and the `status` of a `RemoteCommit` is always `remote`. -/
theorem commit_status_precedence :
    (∀ c : Commit,
      (c.isIntegrated = true → c.status = "integrated") ∧
      (c.isIntegrated = false → c.isRemote = true →
        (c.relatedTo = none ∨ ∃ r, c.relatedTo = some r ∧ r.id = c.id) →
        c.status = "localAndRemote") ∧
      (c.isIntegrated = false →
        (c.isRemote = false ∨ ∃ r, c.relatedTo = some r ∧ r.id ≠ c.id) →
        c.status = "local")) ∧
    ∀ rc : RemoteCommit, rc.status = "remote" := by
  constructor
  · intro c
    refine ⟨fun h => by simp [Commit.status, h], ?_, ?_⟩
    · intro hInt hRem hRel
      rcases hRel with h | ⟨r, hr, hid⟩
      · simp [Commit.status, hInt, hRem, h]
      · simp [Commit.status, hInt, hRem, hr, hid]
    · intro hInt hCase
      rcases hCase with h | ⟨r, hr, hid⟩
      · simp [Commit.status, hInt, h]
      · have : (c.id == r.id) = false := by
          simp [hid.symm]
        simp [Commit.status, hInt, hr, this]
  · intro rc
    rfl

/-- Witness for C1 at concrete commits: one integrated, one remote and
unrelated, one purely local. -/
theorem commit_status_precedence_witness :
    commitIntegrated.status = "integrated" ∧
      commitLocalAndRemote.status = "localAndRemote" ∧ commitLocalOnly.status = "local" :=
  ⟨(commit_status_precedence.1 commitIntegrated).1 rfl,
   (commit_status_precedence.1 commitLocalAndRemote).2.1 rfl rfl (Or.inl rfl),
   (commit_status_precedence.1 commitLocalOnly).2.2 rfl (Or.inl rfl)⟩

/-- Function `commitCompare` in disjunctive normal form. -/
theorem commitCompare_eq_or (a b : AnyCommit) :
    commitCompare a b =
      ((a.id == b.id) ||
        ((!(a.changeId == "") && !(b.changeId == "")) && (a.changeId == b.changeId))) := by
  unfold commitCompare
  cases h1 : (a.id == b.id) with
  | true => simp [h1]
  | false =>
    cases h2 : ((!(a.changeId == "") && !(b.changeId == "")) && (a.changeId == b.changeId)) with
    | true => simp [h1, h2]
    | false => simp [h1, h2]

/-- Equivalence: `commitCompare a b` succeeds exactly on equal ids or equal non-empty
change ids. -/
theorem commitCompare_eq_true_iff (a b : AnyCommit) :
    commitCompare a b = true ↔
      a.id = b.id ∨ (a.changeId ≠ "" ∧ b.changeId ≠ "" ∧ a.changeId = b.changeId) := by
  rw [commitCompare_eq_or]
  simp [Bool.or_eq_true, Bool.and_eq_true, and_assoc]

/-- C2: `commitCompare` is symmetric and reflexive, and returns true exactly
when the ids agree or both change ids are non-empty and agree. -/
theorem commitCompare_symm_refl_iff (a b : AnyCommit) :
    commitCompare a b = commitCompare b a ∧ commitCompare a a = true ∧
      (commitCompare a b = true ↔
        a.id = b.id ∨ (a.changeId ≠ "" ∧ b.changeId ≠ "" ∧ a.changeId = b.changeId)) := by
  refine ⟨?_, ?_, commitCompare_eq_true_iff a b⟩
  · have flip : ∀ x y : AnyCommit, commitCompare x y = true → commitCompare y x = true := by
      intro x y hxy
      rcases (commitCompare_eq_true_iff x y).mp hxy with h | ⟨h1, h2, h3⟩
      · exact (commitCompare_eq_true_iff y x).mpr (Or.inl h.symm)
      · exact (commitCompare_eq_true_iff y x).mpr (Or.inr ⟨h2, h1, h3.symm⟩)
    cases hab : commitCompare a b with
    | true => exact (flip a b hab).symm
    | false =>
      cases hba : commitCompare b a with
      | true => exact absurd (flip b a hba) (by simp [hab])
      | false => rfl
  · exact (commitCompare_eq_true_iff a a).mpr (Or.inl rfl)

/-- C3: deserialization converts `createdAt` asymmetrically — a `RemoteCommit`
payload's raw value is epoch seconds and is multiplied by 1000, while a
`Commit` payload's raw value is epoch milliseconds and is used unchanged; at
the same raw value the remote timestamp is 1000 times the local one. -/
theorem createdAt_conversion_asymmetry (p : RemoteCommitPayload) (q : CommitPayload) :
    (deserializeRemoteCommit p).createdAt = ⟨p.createdAt * 1000⟩ ∧
      (deserializeCommit q).createdAt = ⟨q.createdAt⟩ ∧
      (p.createdAt = q.createdAt →
        (deserializeRemoteCommit p).createdAt.ms = 1000 * (deserializeCommit q).createdAt.ms) := by
  refine ⟨rfl, rfl, fun h => ?_⟩
  simp [deserializeRemoteCommit, deserializeCommit, h, Int.mul_comm]

/-- C4: for a `BaseBranch` whose `remoteUrl` parses, `forgeType` is classified
by substring match on the resolved host, in the order github.com, gitlab.com,
bitbucket.org, dev.azure.com, else Unknown; and on the payload with
`remoteUrl = "git@github.com:owner/repo.git"` the forge type is GitHub and the
repo base URL is `https://github.com/owner/repo`. -/
theorem forge_classification_and_example :
    (∀ host : String,
      (jsIncludes host "github.com" = true → getForgeType host = "GitHub") ∧
      (jsIncludes host "github.com" = false → jsIncludes host "gitlab.com" = true →
        getForgeType host = "GitLab") ∧
      (jsIncludes host "github.com" = false → jsIncludes host "gitlab.com" = false →
        jsIncludes host "bitbucket.org" = true → getForgeType host = "Bitbucket") ∧
      (jsIncludes host "github.com" = false → jsIncludes host "gitlab.com" = false →
        jsIncludes host "bitbucket.org" = false → jsIncludes host "dev.azure.com" = true →
        getForgeType host = "AzureDevOps") ∧
      (jsIncludes host "github.com" = false → jsIncludes host "gitlab.com" = false →
        jsIncludes host "bitbucket.org" = false → jsIncludes host "dev.azure.com" = false →
        getForgeType host = "Unknown")) ∧
    (afterTransform payloadNoPush).map (fun b => b.forgeType) = some "GitHub" ∧
    (afterTransform payloadNoPush).map (fun b => b.repoBaseUrl) =
      some "https://github.com/owner/repo" := by
  refine ⟨fun host => ⟨?_, ?_, ?_, ?_, ?_⟩, by decide, by decide⟩ <;>
    intros <;> simp_all [getForgeType]

/-- Witness for C4 at one concrete host per forge, discharging the
classification hypotheses by evaluation. -/
theorem forge_classification_witness :
    getForgeType "github.com" = "GitHub" ∧ getForgeType "gitlab.com" = "GitLab" ∧
      getForgeType "bitbucket.org" = "Bitbucket" ∧
      getForgeType "dev.azure.com" = "AzureDevOps" ∧ getForgeType "example.org" = "Unknown" :=
  ⟨(forge_classification_and_example.1 "github.com").1 (by decide),
   (forge_classification_and_example.1 "gitlab.com").2.1 (by decide) (by decide),
   (forge_classification_and_example.1 "bitbucket.org").2.2.1 (by decide) (by decide)
     (by decide),
   (forge_classification_and_example.1 "dev.azure.com").2.2.2.1 (by decide) (by decide)
     (by decide) (by decide),
   (forge_classification_and_example.1 "example.org").2.2.2.2 (by decide) (by decide)
     (by decide) (by decide)⟩

/-- C9: on an empty commit list `lastCommitTs` is total and yields `undefined`
(its access is guarded by optional chaining), while `firstCommitAt` fails
(models the unguarded access of a missing element); on a non-empty list
`firstCommitAt` is well defined. -/
theorem first_last_commit_access (b : RemoteBranchData) :
    (b.commits = [] → b.lastCommitTs = none ∧ b.firstCommitAt = none) ∧
      (b.commits ≠ [] → ∃ d, b.firstCommitAt = some d) := by
  constructor
  · intro h
    simp [RemoteBranchData.lastCommitTs, RemoteBranchData.firstCommitAt, h]
  · intro h
    unfold RemoteBranchData.firstCommitAt
    have hlen : b.commits.length - 1 < b.commits.length := by
      have := List.length_pos.mpr h
      omega
    rw [List.getElem?_eq_getElem hlen]
    exact ⟨_, rfl⟩

/-- Witness for C9 at an empty and a one-element commit list. -/
theorem first_last_commit_access_witness :
    (rbdEmptyCommits.lastCommitTs = none ∧ rbdEmptyCommits.firstCommitAt = none) ∧
      ∃ d, rbdOneCommit.firstCommitAt = some d :=
  ⟨(first_last_commit_access rbdEmptyCommits).1 rfl,
   (first_last_commit_access rbdOneCommit).2 (by decide)⟩

/-- C10: `status = "local"` does not imply `isLocal`: a remote, non-integrated
commit whose `relatedTo` bears a different id has status `local` while
`isLocal` is false, so the two derived fields classify localness
differently. -/
theorem status_local_but_not_isLocal :
    commitRelatedElsewhere.isRemote = true ∧ commitRelatedElsewhere.isIntegrated = false ∧
      commitRelatedElsewhere.relatedTo.map (fun r => r.id) = some "def" ∧
      commitRelatedElsewhere.id ≠ "def" ∧
      commitRelatedElsewhere.status = "local" ∧ commitRelatedElsewhere.isLocal = false := by
  decide

/-- C5: when the payload has no `pushRemoteUrl`, `commitBaseUrl` and both URL
generators are never built, so `commitUrl` and `branchUrl` yield `undefined`
for every argument, even though `remoteUrl` classified successfully. -/
theorem no_push_remote_no_urls (p : BaseBranchPayload) (hp : p.pushRemoteUrl = none)
    (b : BaseBranch) (hb : afterTransform p = some b) :
    b.commitBaseUrl = none ∧ (∀ commitId, b.commitUrl commitId = none) ∧
      ∀ upstreamBranchName, b.branchUrl upstreamBranchName = none := by
  unfold afterTransform at hb
  rw [hp] at hb
  cases hpr : parseGitUrl p.remoteUrl with
  | none =>
    rw [hpr] at hb
    simp at hb
  | some g =>
    rw [hpr] at hb
    simp only [gitPushRemoteOfPayload, Option.some.injEq] at hb
    subst hb
    refine ⟨rfl, fun commitId => rfl, fun upstreamBranchName => ?_⟩
    cases upstreamBranchName with
    | none => rfl
    | some u => simp [BaseBranch.branchUrl]

/-- Witness for C5 at the concrete push-remote-free payload. -/
theorem no_push_remote_no_urls_witness :
    baseNoPush.commitBaseUrl = none ∧ baseNoPush.commitUrl "abc123" = none ∧
      baseNoPush.branchUrl (some "refs/remotes/origin/feature") = none :=
  ⟨(no_push_remote_no_urls payloadNoPush rfl baseNoPush (by rfl)).1,
   (no_push_remote_no_urls payloadNoPush rfl baseNoPush (by rfl)).2.1 "abc123",
   (no_push_remote_no_urls payloadNoPush rfl baseNoPush (by rfl)).2.2
     (some "refs/remotes/origin/feature")⟩

/-- C6: a present but unparsable push-remote URL never fails deserialization;
it is treated exactly as an absent push remote — the whole construction is
unchanged, success depends only on `remoteUrl`, and the `gitPushRemote`
descriptor and every push-remote-derived field stay unset. -/
theorem malformed_push_remote_treated_as_absent (p : BaseBranchPayload) (s : String)
    (hs : parseGitUrl s = none) :
    afterTransform { p with pushRemoteUrl := some s } =
        afterTransform { p with pushRemoteUrl := none } ∧
      (afterTransform { p with pushRemoteUrl := some s }).isSome =
        (parseGitUrl p.remoteUrl).isSome ∧
      ∀ b, afterTransform { p with pushRemoteUrl := some s } = some b →
        b.gitPushRemote = none ∧ b.commitBaseUrl = none ∧ b.generateCommitUrl = none ∧
          b.generateBranchUrl = none := by
  have hgn : gitPushRemoteOfPayload none = none := rfl
  have hg : gitPushRemoteOfPayload (some s) = none := by
    simp [gitPushRemoteOfPayload, hs]
  have key : afterTransform { p with pushRemoteUrl := some s } =
      afterTransform { p with pushRemoteUrl := none } := by
    unfold afterTransform
    cases hpr : parseGitUrl p.remoteUrl with
    | none => simp [hpr]
    | some g => simp [hpr, hg, hgn]
  refine ⟨key, ?_, ?_⟩
  · rw [key]
    unfold afterTransform
    cases hpr : parseGitUrl p.remoteUrl with
    | none => simp [hpr]
    | some g => simp [hpr, hgn]
  · intro b hb
    rw [key] at hb
    unfold afterTransform at hb
    cases hpr : parseGitUrl p.remoteUrl with
    | none =>
      rw [hpr] at hb
      simp at hb
    | some g =>
      rw [hpr] at hb
      simp only [hgn, Option.some.injEq] at hb
      subst hb
      exact ⟨rfl, rfl, rfl, rfl⟩

/-- Witness for C6 at the concrete unparsable push-remote URL `not-a-url`. -/
theorem malformed_push_remote_treated_as_absent_witness :
    afterTransform { payloadNoPush with pushRemoteUrl := some "not-a-url" } =
        afterTransform { payloadNoPush with pushRemoteUrl := none } ∧
      baseNoPush.gitPushRemote = none ∧ baseNoPush.commitBaseUrl = none :=
  ⟨(malformed_push_remote_treated_as_absent payloadNoPush "not-a-url" (by decide)).1,
   ((malformed_push_remote_treated_as_absent payloadNoPush "not-a-url" (by decide)).2.2
       baseNoPush (by rfl)).1,
   ((malformed_push_remote_treated_as_absent payloadNoPush "not-a-url" (by decide)).2.2
       baseNoPush (by rfl)).2.1⟩

/-- The JS one-shot `replace` removes exactly the first occurrence of the
pattern, characterised positionally through `firstOccIdx`. -/
theorem jsReplaceFirst_eq_cut (pat l : List Char) :
    jsReplaceFirst pat l =
      match firstOccIdx pat l with
      | none => l
      | some i => l.take i ++ l.drop (i + pat.length) := by
  induction l with
  | nil => rfl
  | cons c rest ih =>
    by_cases hp : pat.isPrefixOf (c :: rest)
    · simp [jsReplaceFirst, firstOccIdx, hp]
    · simp only [jsReplaceFirst, firstOccIdx, hp, if_false, ih, Bool.false_eq_true]
      cases h : firstOccIdx pat rest with
      | none => simp
      | some i =>
        have harith : i + 1 + pat.length = (i + pat.length) + 1 := Nat.add_right_comm i 1 _
        simp [List.take_succ_cons, harith, List.drop_succ_cons]

/-- The string-level JS `replace` agrees with positional first-occurrence
removal. -/
theorem strReplaceJs_eq_removeFirstOcc (s pat : String) :
    strReplaceJs s pat = removeFirstOcc s pat := by
  unfold strReplaceJs removeFirstOcc
  rw [jsReplaceFirst_eq_cut]
  cases h : firstOccIdx pat.toList s.toList with
  | none => rfl
  | some i => rfl

/-- C7 counterexample: `displayName` is not prefix stripping — on the name
`a/origin/b` the code removes the mid-string `origin/` occurrence while
leading-prefix stripping would leave the name unchanged. -/
theorem displayName_not_prefixStripping :
    rbdMidOrigin.displayName = "a/b" ∧
      stripAsPre (stripAsPre (stripAsPre rbdMidOrigin.name "refs/remotes/") "origin/")
          "refs/heads/" = "a/origin/b" ∧
      rbdMidOrigin.displayName ≠
        stripAsPre (stripAsPre (stripAsPre rbdMidOrigin.name "refs/remotes/") "origin/")
          "refs/heads/" := by
  refine ⟨by decide, by decide, ?_⟩
  decide

/-- C7 as amended: `displayName` equals the name with the first occurrence of
`refs/remotes/`, then of `origin/`, then of `refs/heads/` removed, in that
fixed order, each removed wherever it first occurs in the string (not only as
a leading prefix). -/
theorem displayName_removes_first_occurrences (b : RemoteBranchData) :
    b.displayName =
      removeFirstOcc (removeFirstOcc (removeFirstOcc b.name "refs/remotes/") "origin/")
        "refs/heads/" := by
  unfold RemoteBranchData.displayName
  rw [strReplaceJs_eq_removeFirstOcc, strReplaceJs_eq_removeFirstOcc,
    strReplaceJs_eq_removeFirstOcc]

/-- Lemma: `findIndexBy` finds position `pre.length` in `pre ++ a :: rest` (with `a`
satisfying the predicate) exactly when nothing in `pre` satisfies it. -/
theorem findIndexBy_append_cons (p : Author → Bool) (pre : List Author) (a : Author)
    (rest : List Author) (ha : p a = true) :
    findIndexBy p (pre ++ a :: rest) = some pre.length ↔ ∀ b ∈ pre, p b = false := by
  induction pre with
  | nil => simp [findIndexBy, ha]
  | cons c pre ih =>
    cases hc : p c with
    | true => simp [findIndexBy, hc]
    | false =>
      simp only [List.cons_append, findIndexBy, hc, Bool.false_eq_true, if_false,
        List.length_cons, List.mem_cons]
      constructor
      · intro hmap b hb
        rcases hb with rfl | hb
        · exact hc
        · rcases Option.map_eq_some'.mp hmap with ⟨i, hi, hadd⟩
          have : i = pre.length := by omega
          subst this
          exact ih.mp hi b hb
      · intro hall
        have hh : findIndexBy p (pre ++ a :: rest) = some pre.length :=
          ih.mpr (fun b hb => hall b (Or.inr hb))
        show Option.map (fun i => i + 1) (findIndexBy p (pre ++ a :: rest)) =
          some (pre.length + 1)
        rw [hh]
        rfl

/-- Appending an email at the back of the seen list is the same, for
membership tests, as consing it at the front. -/
theorem contains_snoc (seen : List (Option String)) (x e : Option String) :
    (seen ++ [x]).contains e = (x :: seen).contains e := by
  induction seen with
  | nil => rfl
  | cons c seen ih =>
    simp only [List.cons_append, List.contains_cons, ih, Bool.or_comm, Bool.or_left_comm]

/-- Lemma: `keepUnseen` only looks at the seen list through membership. -/
theorem keepUnseen_congr (l : List Author) :
    ∀ seen1 seen2 : List (Option String),
      (∀ e, seen1.contains e = seen2.contains e) → keepUnseen seen1 l = keepUnseen seen2 l := by
  induction l with
  | nil => intro seen1 seen2 h; rfl
  | cons a rest ih =>
    intro seen1 seen2 h
    simp only [keepUnseen, h a.email]
    cases hm : seen2.contains a.email with
    | true => simpa [hm] using ih seen1 seen2 h
    | false =>
      simp only [hm, Bool.false_eq_true, if_false, List.cons.injEq, true_and]
      exact ih _ _ (fun e => by simp only [List.contains_cons, h e])

/-- The index-based filter of the source equals the seen-list walk, for any
split of the author list into an already-scanned part and a tail. -/
theorem filterUnique_eq_keepUnseen (all : List Author) :
    ∀ (post pre : List Author), all = pre ++ post →
      filterUnique all post pre.length = keepUnseen (pre.map (fun x => x.email)) post := by
  intro post
  induction post with
  | nil => intro pre h; rfl
  | cons a rest ih =>
    intro pre h
    have ha : (fun b => b.email == a.email) a = true := by simp
    have hfi := findIndexBy_append_cons (fun b => b.email == a.email) pre a rest ha
    rw [← h] at hfi
    have hsplit : all = (pre ++ [a]) ++ rest := by
      rw [h, List.append_assoc]
      rfl
    have hrec := ih (pre ++ [a]) hsplit
    simp only [List.length_append, List.map_append, List.map_cons, List.map_nil,
      List.length_cons, List.length_nil, Nat.zero_add] at hrec
    by_cases hseen : a.email ∈ pre.map (fun x => x.email)
    · obtain ⟨b0, hb0mem, hb0eq⟩ := List.mem_map.mp hseen
      have hne : ¬(findIndexBy (fun b => b.email == a.email) all = some pre.length) := by
        intro hcontra
        have := hfi.mp hcontra b0 hb0mem
        simp [hb0eq] at this
      have hcond : (findIndexBy (fun b => b.email == a.email) all == some pre.length) = false :=
        beq_eq_false_iff_ne.mpr hne
      have hcont : ((pre.map (fun x => x.email)).contains a.email) = true :=
        List.elem_iff.mpr hseen
      simp only [filterUnique, hcond, Bool.false_eq_true, if_false, keepUnseen, hcont, if_true]
      rw [hrec]
      apply keepUnseen_congr
      intro e
      rw [contains_snoc]
      simp only [List.contains_cons]
      cases he : (e == a.email) with
      | false => simp [he]
      | true =>
        have heq : e = a.email := eq_of_beq he
        subst heq
        rw [hcont]
        rfl
    · have hcont : ((pre.map (fun x => x.email)).contains a.email) = false := by
        cases hc : ((pre.map (fun x => x.email)).contains a.email) with
        | false => rfl
        | true => exact absurd (List.elem_iff.mp hc) hseen
      have hall : ∀ b ∈ pre, (fun b => b.email == a.email) b = false := by
        intro b hb
        cases hbe : (b.email == a.email) with
        | false => exact hbe
        | true =>
          exact absurd (List.mem_map.mpr ⟨b, hb, eq_of_beq hbe⟩) hseen
      have hcond : (findIndexBy (fun b => b.email == a.email) all == some pre.length) = true :=
        beq_iff_eq.mpr (hfi.mpr hall)
      simp only [filterUnique, hcond, if_true, keepUnseen, hcont, Bool.false_eq_true, if_false,
        List.cons.injEq, true_and]
      rw [hrec]
      apply keepUnseen_congr
      intro e
      rw [contains_snoc]

/-- Equation: deduplication of the empty list. -/
theorem dedupByFirstEmail_nil : dedupByFirstEmail [] = [] := by
  rw [dedupByFirstEmail]

/-- Equation: deduplication keeps the head and recurses on the tail with the
head's email filtered out. -/
theorem dedupByFirstEmail_cons (a : Author) (l : List Author) :
    dedupByFirstEmail (a :: l) =
      a :: dedupByFirstEmail (l.filter (fun b => !(b.email == a.email))) := by
  rw [dedupByFirstEmail]

/-- The seen-list walk computes first-occurrence deduplication of whatever is
not yet seen. -/
theorem keepUnseen_eq_dedup (l : List Author) :
    ∀ seen, keepUnseen seen l =
      dedupByFirstEmail (l.filter (fun b => !(seen.contains b.email))) := by
  induction l with
  | nil =>
    intro seen
    rw [List.filter_nil, dedupByFirstEmail_nil]
    rfl
  | cons a rest ih =>
    intro seen
    cases hs : seen.contains a.email with
    | true =>
      simp only [keepUnseen, hs, List.filter_cons, Bool.not_true, Bool.false_eq_true, if_false]
      exact ih seen
    | false =>
      simp only [keepUnseen, hs, Bool.false_eq_true, if_false, List.filter_cons,
        Bool.not_false, if_true]
      rw [dedupByFirstEmail_cons, ih (a.email :: seen)]
      congr 1
      rw [List.filter_filter]
      congr 1
      apply List.filter_congr
      intro b _
      simp only [List.contains_cons, Bool.not_or]

/-- Every author kept by deduplication comes from the input list. -/
theorem mem_of_mem_dedupByFirstEmail :
    ∀ l x, x ∈ dedupByFirstEmail l → x ∈ l := by
  intro l
  induction l using dedupByFirstEmail.induct with
  | case1 =>
    intro x hx
    rw [dedupByFirstEmail_nil] at hx
    cases hx
  | case2 a rest ih =>
    intro x hx
    rw [dedupByFirstEmail_cons] at hx
    rcases List.mem_cons.mp hx with rfl | hx
    · exact List.mem_cons_self _ _
    · exact List.mem_cons_of_mem _ (List.mem_of_mem_filter (ih x hx))

/-- Deduplication leaves pairwise distinct emails. -/
theorem nodup_email_dedupByFirstEmail :
    ∀ l, ((dedupByFirstEmail l).map (fun a => a.email)).Nodup := by
  intro l
  induction l using dedupByFirstEmail.induct with
  | case1 => rw [dedupByFirstEmail_nil]; exact List.nodup_nil
  | case2 a rest ih =>
    rw [dedupByFirstEmail_cons, List.map_cons, List.nodup_cons]
    refine ⟨?_, ih⟩
    intro hmem
    obtain ⟨x, hx, hxe⟩ := List.mem_map.mp hmem
    have hxf := mem_of_mem_dedupByFirstEmail _ x hx
    have := (List.mem_filter.mp hxf).2
    rw [hxe] at this
    simp at this

/-- Every email of the input list survives deduplication. -/
theorem exists_email_dedupByFirstEmail :
    ∀ l, ∀ y ∈ l, ∃ x ∈ dedupByFirstEmail l, x.email = y.email := by
  intro l
  induction l using dedupByFirstEmail.induct with
  | case1 => intro y hy; cases hy
  | case2 a rest ih =>
    intro y hy
    rw [dedupByFirstEmail_cons]
    rcases List.mem_cons.mp hy with rfl | hy
    · exact ⟨y, List.mem_cons_self _ _, rfl⟩
    · by_cases he : y.email = a.email
      · exact ⟨a, List.mem_cons_self _ _, he.symm⟩
      · have hyf : y ∈ rest.filter (fun b => !(b.email == a.email)) := by
          rw [List.mem_filter]
          exact ⟨hy, by simp [he]⟩
        obtain ⟨x, hx, hxe⟩ := ih y hyf
        exact ⟨x, List.mem_cons_of_mem _ hx, hxe⟩

/-- Filtering by a weaker predicate does not change the first hit of a
stronger one. -/
theorem find?_filter_of_imp {α : Type} (l : List α) (p q : α → Bool)
    (h : ∀ y, p y = true → q y = true) : (l.filter q).find? p = l.find? p := by
  induction l with
  | nil => rfl
  | cons c rest ih =>
    rw [List.filter_cons]
    by_cases hq : q c = true
    · rw [if_pos hq]
      by_cases hp : p c = true
      · rw [List.find?_cons_of_pos _ hp, List.find?_cons_of_pos _ hp]
      · rw [List.find?_cons_of_neg _ hp, List.find?_cons_of_neg _ hp, ih]
    · rw [if_neg hq]
      have hp : ¬p c = true := fun hpc => hq (h c hpc)
      rw [List.find?_cons_of_neg _ hp, ih]

/-- Each kept author is the first element of the input list bearing its
email. -/
theorem find?_dedupByFirstEmail :
    ∀ l, ∀ x ∈ dedupByFirstEmail l, l.find? (fun b => b.email == x.email) = some x := by
  intro l
  induction l using dedupByFirstEmail.induct with
  | case1 => intro x hx; rw [dedupByFirstEmail_nil] at hx; cases hx
  | case2 a rest ih =>
    intro x hx
    rw [dedupByFirstEmail_cons] at hx
    rcases List.mem_cons.mp hx with rfl | hx
    · exact List.find?_cons_of_pos _ (by simp)
    · have hxf : x ∈ rest.filter (fun b => !(b.email == a.email)) :=
        mem_of_mem_dedupByFirstEmail _ x hx
      have hxne : ¬x.email = a.email := by
        have := (List.mem_filter.mp hxf).2
        simpa using this
      have hpa : ¬((fun b => b.email == x.email) a = true) := by
        simp only [beq_iff_eq]
        exact fun hc => hxne (by rw [hc])
      rw [@List.find?_cons_of_neg _ (fun b => b.email == x.email) a rest hpa]
      rw [← find?_filter_of_imp rest (fun b => b.email == x.email)
        (fun b => !(b.email == a.email))]
      · exact ih x hx
      · intro y hy
        simp only [beq_iff_eq] at hy
        simp only [Bool.not_eq_true', beq_eq_false_iff_ne]
        rw [hy]
        exact hxne

/-- C8: the derived `authors` list is first-occurrence deduplication of the
commits' authors by email — it keeps each distinct email exactly once (the
emails are pairwise distinct and every commit's author email appears),
keeping for each email the author object of the first commit bearing it, in
first-occurrence order. -/
theorem authors_unique_by_first_email (b : RemoteBranchData) :
    b.authors = dedupByFirstEmail (b.commits.map (fun c => c.author)) ∧
      (b.authors.map (fun a => a.email)).Nodup ∧
      (∀ c ∈ b.commits, ∃ a ∈ b.authors, a.email = c.author.email) ∧
      ∀ a ∈ b.authors,
        (b.commits.map (fun c => c.author)).find? (fun x => x.email == a.email) = some a := by
  have heq : b.authors = dedupByFirstEmail (b.commits.map (fun c => c.author)) := by
    unfold RemoteBranchData.authors
    have h0 := filterUnique_eq_keepUnseen (b.commits.map fun c => c.author)
      (b.commits.map fun c => c.author) [] (List.nil_append _).symm
    simp only [List.length_nil, List.map_nil] at h0
    rw [h0, keepUnseen_eq_dedup]
    congr 1
    have : ∀ x : Author, (!(List.contains ([] : List (Option String)) x.email)) = true := by
      intro x
      rfl
    calc (b.commits.map fun c => c.author).filter
          (fun x => !(List.contains ([] : List (Option String)) x.email))
        = (b.commits.map fun c => c.author).filter (fun _ => true) :=
          List.filter_congr (fun x _ => this x)
      _ = b.commits.map fun c => c.author := List.filter_true _
  refine ⟨heq, ?_, ?_, ?_⟩
  · rw [heq]
    exact nodup_email_dedupByFirstEmail _
  · intro c hc
    rw [heq]
    exact exists_email_dedupByFirstEmail _ c.author (List.mem_map_of_mem _ hc)
  · intro a ha
    rw [heq] at ha
    exact find?_dedupByFirstEmail _ a ha

/-- Witness for C3 at raw value 5 in both payload kinds. -/
theorem createdAt_conversion_asymmetry_witness :
    (deserializeRemoteCommit remoteCommitPayload5).createdAt =
        ⟨remoteCommitPayload5.createdAt * 1000⟩ ∧
      (deserializeCommit commitPayload5).createdAt = ⟨commitPayload5.createdAt⟩ ∧
      (deserializeRemoteCommit remoteCommitPayload5).createdAt.ms =
        1000 * (deserializeCommit commitPayload5).createdAt.ms :=
  ⟨(createdAt_conversion_asymmetry remoteCommitPayload5 commitPayload5).1,
   (createdAt_conversion_asymmetry remoteCommitPayload5 commitPayload5).2.1,
   (createdAt_conversion_asymmetry remoteCommitPayload5 commitPayload5).2.2 rfl⟩

/-- Witness for C8 at a concrete branch whose first two commits share an
email: the duplicated email is covered, and the kept Alice object is the one
of the first commit bearing that email. -/
theorem authors_unique_by_first_email_witness :
    (∃ a ∈ rbdThreeCommits.authors, a.email = authorAliceDup.email) ∧
      (rbdThreeCommits.commits.map (fun c => c.author)).find?
        (fun x => x.email == authorAlice.email) = some authorAlice :=
  ⟨(authors_unique_by_first_email rbdThreeCommits).2.2.1
      { remoteCommitA with id := "r2", author := authorAliceDup } (by decide),
   (authors_unique_by_first_email rbdThreeCommits).2.2.2 authorAlice (by decide)⟩

end GitButler
